import Mathlib

/- Verification development for the Kokoro HTTP framework core.

   The Go sources are shallowly embedded:
   - handlers and middleware (handler.go, router.go) become functions over an
     explicit execution-trace state, with errors as Option values;
   - Go slices with their shared backing arrays (router.go grouping) are
     modelled by an explicit heap of arrays plus (array id, length, capacity)
     slice headers, with the append semantics of the Go runtime;
   - the string, strconv, net and sort standard-library helpers used by
     context.go are embedded from their Go sources over lists of characters.
-/

set_option maxHeartbeats 1000000
set_option maxRecDepth 200000

namespace Kokoro

/-- Execution trace standing in for the observable effects a handler performs
on the mutable per-request state: each instrumented middleware or handler
appends its tag to the trace. -/
abbrev TraceCtx := List String

/-- Go (handler.go): type HandlerFunc func(c ptr-Context) error.  A handler
acts on the per-request state and may return an error; embedded as a function
from the trace state to the updated trace together with an optional error. -/
def HandlerFunc : Type := TraceCtx → TraceCtx × Option String

/-- Go (handler.go): type middlewareFunc func(next HandlerFunc) HandlerFunc,
the internal decorator-shaped middleware representation. -/
def middlewareFunc : Type := HandlerFunc → HandlerFunc

/-- Go (handler.go): type NextMiddleware func(ctx ptr-Context, next HandlerFunc) error,
the user-facing middleware shape that receives its next handler explicitly. -/
def NextMiddleware : Type := TraceCtx → HandlerFunc → TraceCtx × Option String

/-- Go (router.go, wrapNext): adapts a NextMiddleware into a middlewareFunc by
forwarding the context and the bound next handler. -/
def wrapNext (m : NextMiddleware) : middlewareFunc :=
  fun next => fun ctx => m ctx next

/-- Go (router.go, chainMiddlewares): applies the middlewares in reverse order
to the handler, so that mws[0] ends up outermost.  The Go loop
  for i := len(mws)-1; i >= 0; i-- : handler = mws[i](handler)
is exactly a right fold. -/
def chainMiddlewares (handler : HandlerFunc) (mws : List middlewareFunc) : HandlerFunc :=
  mws.foldr (fun m h => m h) handler

/-- Go (router.go, convertNext): converts a slice of NextMiddleware into the
internal middlewareFunc shape, preserving order. -/
def convertNext (mws : List NextMiddleware) : List middlewareFunc :=
  mws.map wrapNext

/-- A pass-through middleware that records its tag on the trace and then
invokes its next handler, used to observe execution order. -/
def traceMw (tag : String) : NextMiddleware :=
  fun ctx next => next (ctx ++ [tag])

/-- A terminal handler that records its tag and succeeds. -/
def traceHandler (tag : String) : HandlerFunc :=
  fun ctx => (ctx ++ [tag], none)

/-- A middleware that records its tag and returns the error e without ever
invoking its next handler. -/
def abortMw (tag : String) (e : String) : NextMiddleware :=
  fun ctx _next => (ctx ++ [tag], some e)

/-- C1: for every terminal handler h and middlewares m1, m2, m3 adapted by
wrapNext and composed by chainMiddlewares, the composed handler runs m1 with
m2 as its next, m2 with m3 as its next, and m3 with h as its next; hence
instrumented middlewares execute in the order m1, m2, m3, h, and when m2
returns an error without invoking next, neither m3 nor h executes and that
error is returned to the caller. -/
theorem chain_runs_in_order_and_aborts_on_error :
    (∀ (m1 m2 m3 : NextMiddleware) (h : HandlerFunc) (ctx : TraceCtx),
       chainMiddlewares h (convertNext [m1, m2, m3]) ctx
         = m1 ctx (fun c1 => m2 c1 (fun c2 => m3 c2 h)))
  ∧ (∀ (a b c d : String) (s : TraceCtx),
       chainMiddlewares (traceHandler d) (convertNext [traceMw a, traceMw b, traceMw c]) s
         = (s ++ [a, b, c, d], none))
  ∧ (∀ (a b c d e : String) (s : TraceCtx),
       chainMiddlewares (traceHandler d) (convertNext [traceMw a, abortMw b e, traceMw c]) s
         = (s ++ [a, b], some e)) := by
  refine ⟨fun _ _ _ _ _ => rfl, fun a b c d s => ?_, fun a b c d e s => ?_⟩ <;>
    simp [chainMiddlewares, convertNext, wrapNext, traceMw, traceHandler, abortMw,
      List.append_assoc]

/- Go slices and the router's middleware lists (router.go).

Router.Use appends to r.globalMiddlewares with Go's builtin append, and
Router.Group copies the slice header, sharing the backing array.  To settle
the grouping claims, Go slices are modelled explicitly: a heap of backing
arrays and slice headers carrying array id, length and capacity.  Go's append
(Go language specification, "Appending to and copying slices") reuses the
backing array when the capacity suffices, writing at the positions from the
old length on; otherwise it allocates a new array.  The new capacity follows
the Go runtime's growslice for the small sizes reached here: at least the
double of the old capacity.  A middleware value is identified by its tag (the
converted middlewareFunc values stored by Use, in registration order). -/

/-- The heap of backing arrays: the physical length of an array equals the
capacity of the slices allocated over it; unused cells hold the empty tag. -/
abbrev GoHeap := List (List String)

/-- A Go slice header: backing-array id, length and capacity. -/
structure GoSlice where
  arr : Nat
  len : Nat
  cap : Nat
deriving DecidableEq, Repr

/-- Overwrite the cells i, i+1, ... of the array a with xs. -/
def writeAt (a : List String) (i : Nat) (xs : List String) : List String :=
  a.take i ++ xs ++ a.drop (i + xs.length)

/-- Go's append: reuse the backing array when the capacity permits, writing
at the cells from the old length on; otherwise allocate a fresh array with at
least the doubled capacity.  Returns the updated heap and slice header. -/
def goAppend (h : GoHeap) (s : GoSlice) (xs : List String) : GoHeap × GoSlice :=
  if s.len + xs.length ≤ s.cap then
    (h.set s.arr (writeAt (h.getD s.arr []) s.len xs),
     ⟨s.arr, s.len + xs.length, s.cap⟩)
  else
    let newcap := max (2 * s.cap) (s.len + xs.length)
    let content := (h.getD s.arr []).take s.len ++ xs
    (h ++ [content ++ List.replicate (newcap - (s.len + xs.length)) ""],
     ⟨h.length, s.len + xs.length, newcap⟩)

/-- The elements of a slice: the first len cells of its backing array. -/
def sliceView (h : GoHeap) (s : GoSlice) : List String :=
  (h.getD s.arr []).take s.len

/-- Well-formedness of a slice header over the heap: the array exists, the
length is within the capacity, and the array physically has cap cells. -/
def wfSlice (h : GoHeap) (s : GoSlice) : Prop :=
  s.arr < h.length ∧ s.len ≤ s.cap ∧ (h.getD s.arr []).length = s.cap

instance (h : GoHeap) (s : GoSlice) : Decidable (wfSlice h s) := by
  unfold wfSlice; infer_instance

/-- Go (router.go): the Router field relevant to middleware inheritance; the
base path and the dispatch tree do not enter the composed chain. -/
structure RouterS where
  globalMiddlewares : GoSlice
deriving DecidableEq, Repr

/-- Go (router.go, Router.Use): append the converted middlewares to the
router's global middleware slice. -/
def routerUse (h : GoHeap) (r : RouterS) (mws : List String) : GoHeap × RouterS :=
  ((goAppend h r.globalMiddlewares mws).1, ⟨(goAppend h r.globalMiddlewares mws).2⟩)

/-- Go (router.go, Router.Group): the group copies the parent's middleware
slice header, sharing the backing array (the path argument is irrelevant to
the chain). -/
def routerGroup (r : RouterS) : RouterS :=
  ⟨r.globalMiddlewares⟩

/-- Go (router.go, Router.add): allMws := append(r.globalMiddlewares,
routeMws...); returns the updated heap and the tags of the effective chain in
order; chainMiddlewares then wraps the terminal handler with exactly these. -/
def routerAdd (h : GoHeap) (r : RouterS) (routeMws : List String) :
    GoHeap × List String :=
  ((goAppend h r.globalMiddlewares routeMws).1,
   sliceView (goAppend h r.globalMiddlewares routeMws).1
     (goAppend h r.globalMiddlewares routeMws).2)

/-- A sequence of Use calls performed on one router, threading the heap. -/
def applyUses (h : GoHeap) (r : RouterS) : List (List String) → GoHeap × RouterS
  | [] => (h, r)
  | ms :: rest => applyUses (routerUse h r ms).1 (routerUse h r ms).2 rest

theorem getD_set_self {α : Type} (l : List α) (i : Nat) (v d : α)
    (hi : i < l.length) : (l.set i v).getD i d = v := by
  induction l generalizing i with
  | nil => simp at hi
  | cons a t ih =>
    cases i with
    | zero => rfl
    | succ j => exact ih j (Nat.lt_of_succ_lt_succ hi)

theorem getD_set_other {α : Type} (l : List α) (i j : Nat) (v d : α)
    (hij : i ≠ j) : (l.set i v).getD j d = l.getD j d := by
  induction l generalizing i j with
  | nil => simp [List.set]
  | cons a t ih =>
    cases i with
    | zero =>
      cases j with
      | zero => exact absurd rfl hij
      | succ k => rfl
    | succ i' =>
      cases j with
      | zero => rfl
      | succ k => exact ih i' k (fun he => hij (by rw [he]))

theorem getD_append_left {α : Type} (l m : List α) (j : Nat) (d : α)
    (hj : j < l.length) : (l ++ m).getD j d = l.getD j d := by
  induction l generalizing j with
  | nil => simp at hj
  | cons a t ih =>
    cases j with
    | zero => rfl
    | succ k => exact ih k (Nat.lt_of_succ_lt_succ hj)

theorem writeAt_length (a : List String) (i : Nat) (xs : List String)
    (hle : i + xs.length ≤ a.length) : (writeAt a i xs).length = a.length := by
  unfold writeAt
  simp only [List.length_append, List.length_take, List.length_drop]
  omega

theorem take_writeAt_full (a : List String) (i : Nat) (xs : List String)
    (hle : i + xs.length ≤ a.length) :
    (writeAt a i xs).take (i + xs.length) = a.take i ++ xs := by
  unfold writeAt
  exact List.take_left' (by simp; omega)

theorem take_writeAt_low (a : List String) (i : Nat) (xs : List String)
    (k : Nat) (hk : k ≤ i) (hia : i ≤ a.length) :
    (writeAt a i xs).take k = a.take k := by
  unfold writeAt
  rw [List.append_assoc, List.take_append_of_le_length (by simp; omega),
    List.take_take, Nat.min_eq_left hk]

theorem getD_append_end {α : Type} (l : List α) (x : α) (d : α) :
    (l ++ [x]).getD l.length d = x := by
  induction l with
  | nil => rfl
  | cons a t ih => exact ih

/-- Appending to a slice extends its view by exactly the appended elements. -/
theorem sliceView_goAppend (h : GoHeap) (s : GoSlice) (xs : List String)
    (hs : wfSlice h s) :
    sliceView (goAppend h s xs).1 (goAppend h s xs).2 = sliceView h s ++ xs := by
  obtain ⟨ha, hlc, hlen⟩ := hs
  unfold goAppend sliceView
  by_cases hcap : s.len + xs.length ≤ s.cap
  · simp only [if_pos hcap]
    rw [getD_set_self _ _ _ _ ha]
    exact take_writeAt_full _ _ _ (by omega)
  · simp only [if_neg hcap]
    have hg : ∀ (rest : List String),
        (h ++ [(h.getD s.arr []).take s.len ++ xs ++ rest]).getD h.length []
          = (h.getD s.arr []).take s.len ++ xs ++ rest := fun rest =>
      getD_append_end h _ []
    rw [hg]
    refine List.take_left' ?_
    rw [List.length_append, List.length_take, hlen]
    omega

/-- Appending through one slice never changes the view of an alias whose
length does not exceed the appending slice's length: in-place writes land at
cells at or beyond that length, and reallocation leaves old arrays alone. -/
theorem sliceView_goAppend_other (h : GoHeap) (s t : GoSlice) (xs : List String)
    (hs : wfSlice h s) (ht : wfSlice h t) (hle : t.len ≤ s.len) :
    sliceView (goAppend h s xs).1 t = sliceView h t := by
  obtain ⟨ha, hlc, hlen⟩ := hs
  obtain ⟨ta, tlc, tlen⟩ := ht
  unfold goAppend sliceView
  by_cases hcap : s.len + xs.length ≤ s.cap
  · simp only [if_pos hcap]
    by_cases harr : t.arr = s.arr
    · rw [harr, getD_set_self _ _ _ _ ha]
      rw [take_writeAt_low _ _ _ _ hle (by omega)]
    · rw [getD_set_other _ _ _ _ _ (fun he => harr he.symm)]
  · simp only [if_neg hcap]
    rw [getD_append_left _ _ _ _ ta]

/-- goAppend preserves the well-formedness of the resulting slice. -/
theorem wfSlice_goAppend_self (h : GoHeap) (s : GoSlice) (xs : List String)
    (hs : wfSlice h s) : wfSlice (goAppend h s xs).1 (goAppend h s xs).2 := by
  obtain ⟨ha, hlc, hlen⟩ := hs
  unfold goAppend wfSlice
  by_cases hcap : s.len + xs.length ≤ s.cap
  · simp only [if_pos hcap]
    refine ⟨by simpa using ha, hcap, ?_⟩
    rw [getD_set_self _ _ _ _ ha]
    rw [writeAt_length _ _ _ (by omega)]
    exact hlen
  · simp only [if_neg hcap]
    refine ⟨by simp, le_max_right _ _, ?_⟩
    rw [getD_append_end h _ []]
    simp only [List.length_append, List.length_take, List.length_replicate]
    omega

/-- goAppend preserves the well-formedness of every other well-formed slice. -/
theorem wfSlice_goAppend_other (h : GoHeap) (s t : GoSlice) (xs : List String)
    (hs : wfSlice h s) (ht : wfSlice h t) :
    wfSlice (goAppend h s xs).1 t := by
  obtain ⟨ha, hlc, hlen⟩ := hs
  obtain ⟨ta, tlc, tlen⟩ := ht
  unfold goAppend wfSlice
  by_cases hcap : s.len + xs.length ≤ s.cap
  · simp only [if_pos hcap]
    refine ⟨by simpa using ta, tlc, ?_⟩
    by_cases harr : t.arr = s.arr
    · rw [harr, getD_set_self _ _ _ _ ha, writeAt_length _ _ _ (by omega)]
      rw [← harr]
      exact tlen
    · rw [getD_set_other _ _ _ _ _ (fun he => harr he.symm)]
      exact tlen
  · simp only [if_neg hcap]
    exact ⟨by simp; omega, tlc, by rw [getD_append_left _ _ _ _ ta]; exact tlen⟩

theorem goAppend_len (h : GoHeap) (s : GoSlice) (xs : List String) :
    (goAppend h s xs).2.len = s.len + xs.length := by
  unfold goAppend
  by_cases hcap : s.len + xs.length ≤ s.cap <;> simp [hcap]

/-- Core frame property: a sequence of Use calls on the parent leaves
unchanged the view, the well-formedness, and the length bound of every alias
slice no longer than the parent's. -/
theorem applyUses_frame (ops : List (List String)) :
    ∀ (h : GoHeap) (p : RouterS) (t : GoSlice),
      wfSlice h p.globalMiddlewares → wfSlice h t →
      t.len ≤ p.globalMiddlewares.len →
      sliceView (applyUses h p ops).1 t = sliceView h t
        ∧ wfSlice (applyUses h p ops).1 t
        ∧ wfSlice (applyUses h p ops).1 (applyUses h p ops).2.globalMiddlewares
        ∧ t.len ≤ (applyUses h p ops).2.globalMiddlewares.len := by
  induction ops with
  | nil => exact fun h p t hp ht hle => ⟨rfl, ht, hp, hle⟩
  | cons ms rest ih =>
    intro h p t hp ht hle
    have hview := sliceView_goAppend_other h p.globalMiddlewares t ms hp ht hle
    have hwt := wfSlice_goAppend_other h p.globalMiddlewares t ms hp ht
    have hwp := wfSlice_goAppend_self h p.globalMiddlewares ms hp
    have hlen2 : t.len ≤ (goAppend h p.globalMiddlewares ms).2.len := by
      rw [goAppend_len]; omega
    have hmain := ih (goAppend h p.globalMiddlewares ms).1
      ⟨(goAppend h p.globalMiddlewares ms).2⟩ t hwp hwt hlen2
    exact ⟨hmain.1.trans hview, hmain.2.1, hmain.2.2.1, hmain.2.2.2⟩

/-- C2 (corrected): with Go's shared-backing-array append, the group's
middleware list is not an immutable snapshot.  Parent: Use A, Use B, Use C
(length 3, capacity 4); the group appends G into the shared spare cell; a
later Use D on the parent overwrites that cell, so a route subsequently
registered through the group gets the chain A, B, C, D instead of A, B, C, G. -/
theorem group_chain_changed_by_parent_use :
    (let st1 := applyUses [[]] ⟨⟨0, 0, 0⟩⟩ [["A"], ["B"], ["C"]]
     let g := routerGroup st1.2
     let st2 := routerUse st1.1 g ["G"]
     let chainBefore := (routerAdd st2.1 st2.2 []).2
     let st3 := routerUse st2.1 st1.2 ["D"]
     let chainAfter := (routerAdd st3.1 st2.2 []).2
     chainBefore = ["A", "B", "C", "G"] ∧ chainAfter = ["A", "B", "C", "D"]
       ∧ chainAfter ≠ chainBefore) := by decide

/-- C2 (amended): as long as the group itself does not append middleware, any
sequence of later Use calls on the parent leaves unchanged the chain applied
to routes subsequently registered through the group: the group's view stays
the creation-time snapshot, because the parent's appends only ever write at
cells at or beyond the group's length or into fresh arrays. -/
theorem group_snapshot_for_nonextending_group (h : GoHeap) (p : RouterS)
    (ops : List (List String)) (routeMws : List String)
    (hp : wfSlice h p.globalMiddlewares) :
    (routerAdd (applyUses h p ops).1 (routerGroup p) routeMws).2
      = sliceView h (routerGroup p).globalMiddlewares ++ routeMws := by
  obtain ⟨hview, hwt, hwp, hlen⟩ :=
    applyUses_frame ops h p p.globalMiddlewares hp hp (le_refl _)
  unfold routerAdd routerGroup
  rw [sliceView_goAppend _ _ _ hwt]
  rw [hview]

theorem group_snapshot_for_nonextending_group_witness :
    wfSlice [[]] ⟨0, 0, 0⟩
      ∧ (routerAdd (applyUses [[]] ⟨⟨0, 0, 0⟩⟩ [["A"]]).1
          (routerGroup ⟨⟨0, 0, 0⟩⟩) ["R"]).2
        = sliceView [[]] (routerGroup ⟨⟨0, 0, 0⟩⟩).globalMiddlewares ++ ["R"] :=
  ⟨by decide,
   group_snapshot_for_nonextending_group [[]] ⟨⟨0, 0, 0⟩⟩ [["A"]] ["R"] (by decide)⟩

/-- C3: registering a route composes the router's global middlewares (in
registration order) followed by the route-specific middlewares (in order)
around the handler; instrumented chains execute in exactly that order with
the handler last; and in the concrete scenario Use A on the parent, Group,
Use B on the group, a route on the group runs A, B, handler while a route
registered directly on the parent runs only A, handler. -/
theorem add_composes_global_then_route_then_handler :
    (∀ (h : GoHeap) (r : RouterS) (routeMws : List String),
       wfSlice h r.globalMiddlewares →
       (routerAdd h r routeMws).2 = sliceView h r.globalMiddlewares ++ routeMws)
  ∧ (∀ (ids : List String) (t : String) (s : TraceCtx),
       chainMiddlewares (traceHandler t) (convertNext (ids.map traceMw)) s
         = (s ++ ids ++ [t], none))
  ∧ (let st1 := applyUses [[]] ⟨⟨0, 0, 0⟩⟩ [["A"]]
     let g := routerGroup st1.2
     let st2 := routerUse st1.1 g ["B"]
     let groupChain := (routerAdd st2.1 st2.2 []).2
     let parentChain := (routerAdd st2.1 st1.2 []).2
     groupChain = ["A", "B"] ∧ parentChain = ["A"]
       ∧ chainMiddlewares (traceHandler "h") (convertNext (groupChain.map traceMw)) []
           = (["A", "B", "h"], none)
       ∧ chainMiddlewares (traceHandler "h") (convertNext (parentChain.map traceMw)) []
           = (["A", "h"], none)) := by
  refine ⟨?_, ?_, by decide, by decide, by rfl, by rfl⟩
  · intro h r routeMws hr
    unfold routerAdd
    exact sliceView_goAppend h r.globalMiddlewares routeMws hr
  · intro ids t
    induction ids with
    | nil => intro s; simp [chainMiddlewares, convertNext, traceHandler]
    | cons i rest ih =>
      intro s
      have hstep : chainMiddlewares (traceHandler t) (convertNext ((i :: rest).map traceMw)) s
          = chainMiddlewares (traceHandler t) (convertNext (rest.map traceMw)) (s ++ [i]) := rfl
      rw [hstep, ih (s ++ [i])]
      simp

theorem add_composes_global_then_route_then_handler_witness :
    wfSlice [[]] ⟨0, 0, 0⟩
      ∧ (routerAdd [[]] ⟨⟨0, 0, 0⟩⟩ ["R"]).2
          = sliceView [[]] ⟨0, 0, 0⟩ ++ ["R"] :=
  ⟨by decide,
   add_composes_global_then_route_then_handler.1 [[]] ⟨⟨0, 0, 0⟩⟩ ["R"] (by decide)⟩

/- String and strconv helpers used by context.go, embedded from their Go
standard-library sources over lists of characters. -/

/-- Go unicode.IsSpace restricted to the code points it recognises in
Latin-1: space, tab, newline, vertical tab, form feed, carriage return,
next line, no-break space. -/
def goIsSpace (c : Char) : Bool :=
  c = ' ' || c = '\t' || c = '\n' || c = Char.ofNat 11 || c = Char.ofNat 12 ||
    c = '\r' || c = Char.ofNat 0x85 || c = Char.ofNat 0xA0

/-- Go strings.TrimSpace: drop leading and trailing white space. -/
def goTrimSpace (s : String) : String :=
  (((s.toList.dropWhile goIsSpace).reverse.dropWhile goIsSpace).reverse).asString

/-- Split a character list at the first occurrence of the character c;
none when c does not occur. -/
def splitFirstChar : List Char → Char → Option (List Char × List Char)
  | [], _ => none
  | x :: xs, c =>
    if x = c then some ([], xs)
    else (splitFirstChar xs c).map (fun p => (x :: p.1, p.2))

/-- Go strings.SplitN(s, sep, 2) for a one-character separator: some (before,
after) at the first occurrence, none when sep does not occur (Go returns the
one-element slice and the caller fails its length check). -/
def splitN2 (s : String) (c : Char) : Option (String × String) :=
  (splitFirstChar s.toList c).map (fun p => (p.1.asString, p.2.asString))

/-- Go strings.Split for a one-character separator; the result is never
empty, and splitting the empty string yields one empty part. -/
def splitAllChar : List Char → Char → List (List Char)
  | [], _ => [[]]
  | x :: xs, c =>
    if x = c then [] :: splitAllChar xs c
    else
      match splitAllChar xs c with
      | [] => [[x]]
      | y :: ys => (x :: y) :: ys

/-- Go strings.Split(s, ",") over strings. -/
def goSplitComma (s : String) : List String :=
  (splitAllChar s.toList ',').map List.asString

/-- Go strconv.ParseInt(s, 10, 64): optional sign, decimal digits, value
within the signed 64-bit range; none on the error paths (empty digits,
non-digit character, out of range) where Go reports a non-nil error. -/
def goParseInt (s : String) : Option Int :=
  let p : Bool × List Char :=
    match s.toList with
    | '+' :: r => (false, r)
    | '-' :: r => (true, r)
    | r => (false, r)
  if p.2 = [] then none
  else if p.2.all (fun c => c.isDigit) then
    let n : Nat := p.2.foldl (fun acc c => acc * 10 + (c.toNat - 48)) 0
    if p.1 then (if n ≤ 2 ^ 63 then some (-(n : Int)) else none)
    else (if n ≤ 2 ^ 63 - 1 then some (n : Int) else none)
  else none

/- Byte-range parsing (context.go, Context.Range). -/

/-- Go (context.go): type HTTPRange struct { Start, End int64 }. -/
structure HTTPRange where
  Start : Int
  End : Int
deriving DecidableEq, Repr

/-- Go (context.go): type Range struct { Type string; Ranges []HTTPRange };
fields are lower-cased because Type is reserved in Lean. -/
structure Range where
  type : String
  ranges : List HTTPRange
deriving DecidableEq, Repr

/-- One iteration of the loop in Context.Range over a comma-separated range
segment: an error for the structural failures, ok none when the segment is
skipped by the start-beyond-size or inverted-range check, ok some for a
surviving range.  The single Go skip check after the two branches is stated
once per branch with the branch's end value. -/
def parseRangeSegment (maxSize : Int) (seg : String) : Except String (Option HTTPRange) :=
  let rStr := goTrimSpace seg
  match splitN2 rStr '-' with
  | none => .error ("invalid range segment: " ++ rStr)
  | some (b0, b1) =>
    if b0 = "" then
      match goParseInt b1 with
      | none => .error ("invalid suffix range value: " ++ rStr)
      | some e0 =>
        if e0 ≤ 0 then .error ("invalid suffix range value: " ++ rStr)
        else
          let e1 := if e0 > maxSize then maxSize else e0
          let start := max (maxSize - e1) 0
          if start ≥ maxSize ∨ start > maxSize - 1 then .ok none
          else .ok (some ⟨start, maxSize - 1⟩)
    else
      match goParseInt b0 with
      | none => .error ("invalid start range value: " ++ rStr)
      | some st =>
        if st < 0 then .error ("invalid start range value: " ++ rStr)
        else if b1 ≠ "" then
          match goParseInt b1 with
          | none => .error ("invalid end range value: " ++ rStr)
          | some e0 =>
            if e0 < st then .error ("invalid end range value: " ++ rStr)
            else
              let e1 := if e0 ≥ maxSize then maxSize - 1 else e0
              if st ≥ maxSize ∨ st > e1 then .ok none
              else .ok (some ⟨st, e1⟩)
        else
          if st ≥ maxSize ∨ st > maxSize - 1 then .ok none
          else .ok (some ⟨st, maxSize - 1⟩)

/-- The loop of Context.Range: process the segments left to right, stopping
at the first error, dropping skipped segments, keeping survivors in order. -/
def collectRanges (maxSize : Int) : List String → Except String (List HTTPRange)
  | [] => .ok []
  | seg :: rest =>
    match parseRangeSegment maxSize seg with
    | .error e => .error e
    | .ok none => collectRanges maxSize rest
    | .ok (some r) =>
      match collectRanges maxSize rest with
      | .error e => .error e
      | .ok rs => .ok (r :: rs)

/-- Go (context.go, Context.Range) on the value of the Range header: empty
header, missing separator and non-bytes unit fail; then the comma-separated
segments are processed and an empty survivor list is the distinct
no-valid-ranges error. -/
def goRange (header : String) (maxSize : Int) : Except String Range :=
  if header = "" then .error "no Range header"
  else
    match splitN2 header '=' with
    | none => .error "invalid Range header format"
    | some (p0, p1) =>
      let unit := goTrimSpace p0
      if unit ≠ "bytes" then .error ("unsupported range unit: " ++ unit)
      else
        match collectRanges maxSize (goSplitComma p1) with
        | .error e => .error e
        | .ok [] => .error "no valid byte ranges found in header"
        | .ok rs => .ok ⟨unit, rs⟩

/-- C6: the four concrete behaviours of Range at total size 1000: an explicit
in-bounds range, a suffix range, an end clamped to the size, and the
no-valid-ranges error when the start lies beyond the total size. -/
theorem range_concrete_cases :
    goRange "bytes=0-499" 1000 = .ok ⟨"bytes", [⟨0, 499⟩]⟩
  ∧ goRange "bytes=-500" 1000 = .ok ⟨"bytes", [⟨500, 999⟩]⟩
  ∧ goRange "bytes=900-1500" 1000 = .ok ⟨"bytes", [⟨900, 999⟩]⟩
  ∧ goRange "bytes=2000-3000" 1000 = .error "no valid byte ranges found in header" :=
  ⟨rfl, rfl, rfl, rfl⟩

theorem parseRangeSegment_ok_bounds (m : Int) (seg : String) (r : HTTPRange)
    (h : parseRangeSegment m seg = .ok (some r)) :
    0 ≤ r.Start ∧ r.Start ≤ r.End ∧ r.End < m := by
  simp only [parseRangeSegment] at h
  repeat' split at h
  all_goals first
    | (simp at h; done)
    | (simp only [Except.ok.injEq, Option.some.injEq] at h
       subst h
       refine ⟨?_, ?_, ?_⟩ <;> (try dsimp only) <;> first
         | exact le_max_right _ _
         | exact le_sup_right
         | omega)

theorem collectRanges_ok_bounds (m : Int) :
    ∀ (segs : List String) (rs : List HTTPRange),
      collectRanges m segs = .ok rs →
      ∀ r ∈ rs, 0 ≤ r.Start ∧ r.Start ≤ r.End ∧ r.End < m := by
  intro segs
  induction segs with
  | nil => intro rs h r hr; simp only [collectRanges, Except.ok.injEq] at h; subst h; simp at hr
  | cons seg rest ih =>
    intro rs h r hr
    simp only [collectRanges] at h
    split at h
    · simp at h
    · exact ih rs h r hr
    · rename_i r0 hseg
      split at h
      · simp at h
      · rename_i rs0 hrest
        simp only [Except.ok.injEq] at h
        subst h
        rcases List.mem_cons.mp hr with hr0 | hrmem
        · subst hr0; exact parseRangeSegment_ok_bounds m seg r hseg
        · exact ih rs0 hrest r hrmem

/-- C7: whenever Range succeeds, the returned range set is non-empty (an
all-dropped header errors instead) and every returned range satisfies
0 <= Start <= End < totalSize; out-of-bounds sub-ranges are dropped rather
than propagated. -/
theorem range_ok_ranges_in_bounds (header : String) (m : Int) (res : Range)
    (hok : goRange header m = .ok res) :
    res.ranges ≠ [] ∧ ∀ r ∈ res.ranges, 0 ≤ r.Start ∧ r.Start ≤ r.End ∧ r.End < m := by
  simp only [goRange] at hok
  repeat' split at hok
  all_goals first
    | (simp at hok; done)
    | (rename_i hne heq
       simp only [Except.ok.injEq] at hok
       subst hok
       exact ⟨hne, collectRanges_ok_bounds m _ _ heq⟩)

theorem range_ok_ranges_in_bounds_witness :
    goRange "bytes=0-499" 1000 = .ok ⟨"bytes", [⟨0, 499⟩]⟩
      ∧ (⟨"bytes", [⟨0, 499⟩]⟩ : Range).ranges ≠ []
      ∧ ∀ r ∈ (⟨"bytes", [⟨0, 499⟩]⟩ : Range).ranges,
          0 ≤ r.Start ∧ r.Start ≤ r.End ∧ r.End < 1000 :=
  ⟨rfl, (range_ok_ranges_in_bounds "bytes=0-499" 1000 ⟨"bytes", [⟨0, 499⟩]⟩ rfl).1,
    (range_ok_ranges_in_bounds "bytes=0-499" 1000 ⟨"bytes", [⟨0, 499⟩]⟩ rfl).2⟩

/-- Whether the embedded Range computation failed. -/
def isErr {α : Type} : Except String α → Bool
  | .error _ => true
  | .ok _ => false

/-- The structural failures of one range segment exactly as the claim lists
them: a segment without a dash, an unparsable suffix length or one that is
not positive, an unparsable or negative start, or an explicit end value less
than its start. -/
def specSegFail (seg : String) : Bool :=
  let rStr := goTrimSpace seg
  match splitN2 rStr '-' with
  | none => true
  | some (b0, b1) =>
    if b0 = "" then
      match goParseInt b1 with
      | none => true
      | some e0 => if e0 ≤ 0 then true else false
    else
      match goParseInt b0 with
      | none => true
      | some st =>
        if st < 0 then true
        else if b1 ≠ "" then
          match goParseInt b1 with
          | none => true
          | some e0 => if e0 < st then true else false
        else false

/-- The structural failures of the whole header exactly as the claim lists
them: absent or empty header, no equals sign, a unit other than bytes, or a
failing segment. -/
def specStructFail (header : String) : Bool :=
  if header = "" then true
  else
    match splitN2 header '=' with
    | none => true
    | some (p0, p1) =>
      if goTrimSpace p0 ≠ "bytes" then true
      else (goSplitComma p1).any specSegFail

/-- Every sub-range of a structurally well-formed header was skipped by the
bounds check, which is the distinct no-valid-ranges error condition. -/
def allDropped (header : String) (maxSize : Int) : Bool :=
  match splitN2 header '=' with
  | none => false
  | some p =>
    match collectRanges maxSize (goSplitComma p.2) with
    | .ok [] => true
    | _ => false

theorem parseRangeSegment_isErr (m : Int) (seg : String) :
    isErr (parseRangeSegment m seg) = specSegFail seg := by
  simp only [parseRangeSegment, specSegFail]
  repeat' split
  all_goals simp [isErr]

theorem collectRanges_isErr (m : Int) (segs : List String) :
    isErr (collectRanges m segs) = segs.any specSegFail := by
  induction segs with
  | nil => rfl
  | cons seg rest ih =>
    simp only [collectRanges, List.any_cons]
    rw [← parseRangeSegment_isErr m seg]
    cases hp : parseRangeSegment m seg with
    | error e => simp [isErr]
    | ok o =>
      cases o with
      | none => simpa [isErr] using ih
      | some r =>
        simp only [isErr, Bool.false_or]
        cases hc : collectRanges m rest with
        | error e => rw [← ih, hc]; rfl
        | ok rs => rw [← ih, hc]; rfl

/-- C8 counterexample: the header bytes equals 2000 dash 3000 at total size
1000 makes Range fail although none of the structural failure conditions
enumerated by the claim holds, so the claimed exact characterization of the
error cases is false. -/
theorem range_error_without_structural_failure :
    isErr (goRange "bytes=2000-3000" 1000) = true
      ∧ specStructFail "bytes=2000-3000" = false :=
  ⟨rfl, rfl⟩

/-- C8 (amended): Range fails exactly when a structural parse failure occurs
(absent or empty header, missing equals sign, a unit other than bytes, a
segment without a dash, an unparsable or negative start, an unparsable or
non-positive suffix length, or an explicit end before its start) or when a
structurally parsed header has every sub-range dropped by the bounds check. -/
theorem range_errs_iff_structural_or_all_dropped (header : String) (m : Int) :
    isErr (goRange header m) = (specStructFail header || allDropped header m) := by
  simp only [goRange, specStructFail, allDropped]
  by_cases hh : header = ""
  · simp [hh, isErr]
  · simp only [if_neg hh]
    cases hsp : splitN2 header '=' with
    | none => simp [isErr]
    | some p =>
      obtain ⟨p0, p1⟩ := p
      by_cases hu : goTrimSpace p0 ≠ "bytes"
      · simp [hu, isErr]
      · simp only [if_neg hu, Bool.false_or]
        have hcl := collectRanges_isErr m (goSplitComma p1)
        cases hc : collectRanges m (goSplitComma p1) with
        | error e => rw [hc] at hcl; simp [isErr, ← hcl]
        | ok rs =>
          rw [hc] at hcl
          cases rs with
          | nil => simp [isErr, ← hcl]
          | cons r rs0 => simp [isErr, ← hcl]

/- Content negotiation (context.go: parseAccept, matchAccept).

parseAccept parses the comma-separated header into items carrying a value and
a quality weight, then sorts them with sort.Slice and the comparison
items[i].q > items[j].q.  sort.Slice of the Go standard library is pdqsort;
it is embedded below component by component from sort/zsortfunc.go (Go 1.21):
insertion sort, heap sort, pivot selection, partitioning, pattern breaking
and the main loop.  Loops whose indices move through the segment are written
with an explicit fuel argument larger than any possible iteration count.
Quality weights are modelled as exact rationals; the parsed fragment of
strconv.ParseFloat covers the plain decimal forms, on which float64
comparisons of short decimals agree with the exact rational ones. -/

/-- Go strings.Index(s, substr): index of the first occurrence, none when the
pattern is absent (Go returns -1 and the caller skips the branch). -/
def findSub : List Char → List Char → Option Nat
  | [], pat => if pat = [] then some 0 else none
  | c :: tl, pat =>
    if pat.isPrefixOf (c :: tl) then some 0
    else (findSub tl pat).map (· + 1)

/-- Go strings.ToLower restricted to ASCII letters (the header values and
offers in scope are ASCII). -/
def toLowerChar (c : Char) : Char :=
  if 'A' ≤ c ∧ c ≤ 'Z' then Char.ofNat (c.toNat + 32) else c

def goToLower (s : String) : String :=
  (s.toList.map toLowerChar).asString

def goStartsWith (s pre : String) : Bool :=
  pre.toList.isPrefixOf s.toList

def goHasSuffix (s suf : String) : Bool :=
  suf.toList.reverse.isPrefixOf s.toList.reverse

/-- Go strings.TrimSuffix: remove one trailing occurrence of suf, if any. -/
def goTrimSuffix (s suf : String) : String :=
  if goHasSuffix s suf then (s.toList.take (s.toList.length - suf.toList.length)).asString
  else s

def digitsVal (ds : List Char) : Nat :=
  ds.foldl (fun acc c => acc * 10 + (c.toNat - 48)) 0

/-- Modelled fragment of Go strconv.ParseFloat(s, 64): the plain decimal
forms (optional sign, digits, one optional decimal point, at least one digit)
with their exact rational value.  Exponent, hexadecimal, infinity and NaN
forms are treated as a parse failure, on which the caller keeps the default
weight 1 as it does for every failure. -/
def goParseFloat (s : String) : Option ℚ :=
  let p : Bool × List Char :=
    match s.toList with
    | '+' :: r => (false, r)
    | '-' :: r => (true, r)
    | r => (false, r)
  let intPart := p.2.takeWhile (fun c => c.isDigit)
  let rest := p.2.dropWhile (fun c => c.isDigit)
  match rest with
  | [] =>
    if intPart = [] then none
    else
      let n : ℚ := mkRat (digitsVal intPart) 1
      some (if p.1 then -n else n)
  | '.' :: frac =>
    if frac.all (fun c => c.isDigit) ∧ (intPart ≠ [] ∨ frac ≠ []) then
      let v : ℚ := mkRat (digitsVal (intPart ++ frac)) (10 ^ frac.length)
      some (if p.1 then -v else v)
    else none
  | _ => none

/-- Go (context.go): type acceptItem struct { value string; q float64 }. -/
structure acceptItem where
  value : String
  q : ℚ
deriving DecidableEq, Repr

/-- The parsing loop of parseAccept before the sort: split the header on
commas, trim each part, strip an optional ;q= suffix and parse its weight
(default 1 when absent or unparsable), lower-case the value. -/
def parseAcceptItems (header : String) : List acceptItem :=
  (goSplitComma header).map (fun part0 =>
    let part1 := goTrimSpace part0
    match findSub part1.toList [';', 'q', '='] with
    | some i =>
      let qValStr := (part1.toList.drop (i + 3)).asString
      let val := (part1.toList.take i).asString
      let q : ℚ :=
        match goParseFloat qValStr with
        | some v => v
        | none => 1
      ⟨goToLower val, q⟩
    | none => ⟨goToLower part1, 1⟩)

/- sort.Slice = pdqsort (sort/zsortfunc.go), over a list with indexed access. -/

def itemD : acceptItem := ⟨"", 1⟩

def idxI (d : List acceptItem) (i : Nat) : acceptItem := d.getD i itemD

/-- The comparison closure passed to sort.Slice: items[i].q > items[j].q. -/
def lessI (d : List acceptItem) (i j : Nat) : Bool :=
  decide ((idxI d i).q > (idxI d j).q)

def swapI (d : List acceptItem) (i j : Nat) : List acceptItem :=
  (d.set i (idxI d j)).set j (idxI d i)

/-- Inner loop of insertionSort: bubble the element at j left while it is
strictly less than its left neighbour (structural recursion on j; at j = 0
the Go guard j greater than a always fails). -/
def insInner : List acceptItem → Nat → Nat → List acceptItem
  | d, _, 0 => d
  | d, a, j + 1 =>
    if a < j + 1 ∧ lessI d (j + 1) j then insInner (swapI d (j + 1) j) a j else d

/-- Outer loop of insertionSort over i from a+1 to b, fueled: the fuel bounds
the number of iterations b - (a+1). -/
def insLoopF : Nat → List acceptItem → Nat → Nat → Nat → List acceptItem
  | 0, d, _, _, _ => d
  | fuel + 1, d, a, i, b =>
    if i < b then insLoopF fuel (insInner d a i) a (i + 1) b else d

/-- Go insertionSort_func on the segment from a to b. -/
def insertionSortR (d : List acceptItem) (a b : Nat) : List acceptItem :=
  insLoopF (b + 1) d a (a + 1) b

/-- Go siftDown_func, fueled (the heap depth bounds the iterations). -/
def siftDownF : Nat → List acceptItem → Nat → Nat → Nat → List acceptItem
  | 0, d, _, _, _ => d
  | fuel + 1, d, root, hi, first =>
    let child := 2 * root + 1
    if child ≥ hi then d
    else
      let child2 :=
        if child + 1 < hi ∧ lessI d (first + child) (first + child + 1) then child + 1
        else child
      if lessI d (first + root) (first + child2) = false then d
      else siftDownF fuel (swapI d (first + root) (first + child2)) child2 hi first

/-- Go heapSort_func on the segment from a to b. -/
def heapSortF (d : List acceptItem) (a b : Nat) : List acceptItem :=
  let first := a
  let hi := b - a
  let d1 := (List.range ((hi - 1) / 2 + 1)).reverse.foldl
    (fun acc i => siftDownF (hi + 1) acc i hi first) d
  (List.range hi).reverse.foldl
    (fun acc i => siftDownF (hi + 1) (swapI acc first (first + i)) 0 i first) d1

/-- Go reverseRange_func: swap inward from both ends, fueled. -/
def revRangeF : Nat → List acceptItem → Nat → Nat → List acceptItem
  | 0, d, _, _ => d
  | fuel + 1, d, i, j =>
    if i < j then revRangeF fuel (swapI d i j) (i + 1) (j - 1) else d

/-- Go order2_func: order two indices by the data, counting swaps. -/
def order2 (d : List acceptItem) (a b : Nat) (sw : Nat) : Nat × Nat × Nat :=
  if lessI d b a then (b, a, sw + 1) else (a, b, sw)

/-- Go median_func: the median index of three, counting swaps. -/
def medianOf (d : List acceptItem) (a b c sw : Nat) : Nat × Nat :=
  let p1 := order2 d a b sw
  let p2 := order2 d p1.2.1 c p1.2.2
  let p3 := order2 d p1.1 p2.1 p2.2.2
  (p3.2.1, p3.2.2)

/-- Go medianAdjacent_func. -/
def medianAdjacent (d : List acceptItem) (a sw : Nat) : Nat × Nat :=
  medianOf d (a - 1) a (a + 1) sw

/-- Go choosePivot_func; the hint is encoded 1 = increasing, 2 = decreasing,
0 = unknown. -/
def choosePivot (d : List acceptItem) (a b : Nat) : Nat × Nat :=
  let l := b - a
  let i0 := a + l / 4 * 1
  let j0 := a + l / 4 * 2
  let k0 := a + l / 4 * 3
  if l ≥ 8 then
    if l ≥ 50 then
      let p1 := medianAdjacent d i0 0
      let p2 := medianAdjacent d j0 p1.2
      let p3 := medianAdjacent d k0 p2.2
      let p4 := medianOf d p1.1 p2.1 p3.1 p3.2
      (p4.1, if p4.2 = 0 then 1 else if p4.2 = 12 then 2 else 0)
    else
      let p4 := medianOf d i0 j0 k0 0
      (p4.1, if p4.2 = 0 then 1 else if p4.2 = 12 then 2 else 0)
  else
    (j0, 1)

/-- Scan of partialInsertionSort_func advancing i over a sorted run, fueled. -/
def pInsScanF : Nat → List acceptItem → Nat → Nat → Nat
  | 0, _, i, _ => i
  | fuel + 1, d, i, b =>
    if i < b ∧ lessI d i (i - 1) = false then pInsScanF fuel d (i + 1) b else i

/-- Left shift loop of partialInsertionSort_func (structural on j). -/
def shiftLeftLoop : List acceptItem → Nat → List acceptItem
  | d, 0 => d
  | d, j + 1 =>
    if lessI d (j + 1) j then shiftLeftLoop (swapI d (j + 1) j) j else d

/-- Right shift loop of partialInsertionSort_func, fueled. -/
def shiftRightLoopF : Nat → List acceptItem → Nat → Nat → List acceptItem
  | 0, d, _, _ => d
  | fuel + 1, d, j, b =>
    if j < b then
      if lessI d j (j - 1) then shiftRightLoopF fuel (swapI d j (j - 1)) (j + 1) b else d
    else d

/-- Go partialInsertionSort_func: at most five misplaced elements are moved;
returns the data and whether the segment ended up sorted. -/
def pInsGo (a b : Nat) : Nat → List acceptItem → Nat → List acceptItem × Bool
  | 0, d, _ => (d, false)
  | steps + 1, d, i0 =>
    let i := pInsScanF (b + 1) d i0 b
    if i = b then (d, true)
    else if b - a < 50 then (d, false)
    else
      let d1 := swapI d i (i - 1)
      let d2 := if i - a ≥ 2 then shiftLeftLoop d1 (i - 1) else d1
      let d3 := if b - i ≥ 2 then shiftRightLoopF (b + 1) d2 (i + 1) b else d2
      pInsGo a b steps d3 i

def partInsSort (d : List acceptItem) (a b : Nat) : List acceptItem × Bool :=
  pInsGo a b 5 d (a + 1)

/-- Scan i right while data[i] is less than the pivot at a (partition_func). -/
def scanIncF : Nat → List acceptItem → Nat → Nat → Nat → Nat
  | 0, _, _, i, _ => i
  | fuel + 1, d, a, i, j =>
    if i ≤ j ∧ lessI d i a then scanIncF fuel d a (i + 1) j else i

/-- Scan j left while data[j] is not less than the pivot at a. -/
def scanDecF : Nat → List acceptItem → Nat → Nat → Nat → Nat
  | 0, _, _, _, j => j
  | fuel + 1, d, a, i, j =>
    if i ≤ j ∧ lessI d j a = false then scanDecF fuel d a i (j - 1) else j

/-- Main exchange loop of partition_func. -/
def partMainF : Nat → List acceptItem → Nat → Nat → Nat → Nat → List acceptItem × Nat
  | 0, d, _, _, j, _ => (d, j)
  | fuel + 1, d, a, i, j, b =>
    let i1 := scanIncF (b + 2) d a i j
    let j1 := scanDecF (b + 2) d a i1 j
    if i1 > j1 then (d, j1)
    else partMainF fuel (swapI d i1 j1) a (i1 + 1) (j1 - 1) b

/-- Go partition_func: returns data, the final pivot position, and whether
the segment was already partitioned. -/
def partitionF (d0 : List acceptItem) (a b pivot : Nat) : List acceptItem × Nat × Bool :=
  let d := swapI d0 a pivot
  let i0 := scanIncF (b + 2) d a (a + 1) (b - 1)
  let j0 := scanDecF (b + 2) d a i0 (b - 1)
  if i0 > j0 then (swapI d j0 a, j0, true)
  else
    let p := partMainF (b + 2) (swapI d i0 j0) a (i0 + 1) (j0 - 1) b
    (swapI p.1 p.2 a, p.2, false)

/-- Scans of partitionEqual_func. -/
def scanIncEqF : Nat → List acceptItem → Nat → Nat → Nat → Nat
  | 0, _, _, i, _ => i
  | fuel + 1, d, a, i, j =>
    if i ≤ j ∧ lessI d a i = false then scanIncEqF fuel d a (i + 1) j else i

def scanDecEqF : Nat → List acceptItem → Nat → Nat → Nat → Nat
  | 0, _, _, _, j => j
  | fuel + 1, d, a, i, j =>
    if i ≤ j ∧ lessI d a j then scanDecEqF fuel d a i (j - 1) else j

def partEqF : Nat → List acceptItem → Nat → Nat → Nat → List acceptItem × Nat
  | 0, d, _, i, _ => (d, i)
  | fuel + 1, d, a, i, j =>
    let i1 := scanIncEqF (j + 2) d a i j
    let j1 := scanDecEqF (j + 2) d a i1 j
    if i1 > j1 then (d, i1)
    else partEqF fuel (swapI d i1 j1) a (i1 + 1) (j1 - 1)

/-- Go partitionEqual_func: moves elements equal to the pivot to the front,
returning the first index past them. -/
def partitionEqualF (d0 : List acceptItem) (a b pivot : Nat) : List acceptItem × Nat :=
  let d := swapI d0 a pivot
  partEqF (b + 2) d a (a + 1) (b - 1)

/-- The xorshift step of sort's pattern-breaking randomness (uint64). -/
def xorshiftNext (r : Nat) : Nat :=
  let m := 2 ^ 64
  let r1 := (r ^^^ (r <<< 13)) % m
  let r2 := (r1 ^^^ (r1 >>> 7)) % m
  (r2 ^^^ (r2 <<< 17)) % m

def bitsLenAux : Nat → Nat → Nat
  | 0, _ => 0
  | fuel + 1, n => if n = 0 then 0 else bitsLenAux fuel (n / 2) + 1

/-- Go bits.Len: the number of bits needed to represent n. -/
def bitsLen (n : Nat) : Nat := bitsLenAux (n + 1) n

def nextPow2 (n : Nat) : Nat := 2 ^ bitsLen n

/-- Go breakPatterns_func: three pseudo-random swaps around the midpoint. -/
def breakPatternsF (d : List acceptItem) (a b : Nat) : List acceptItem :=
  let len := b - a
  if len ≥ 8 then
    let modulus := nextPow2 len
    let i0 := a + len / 4 * 2 - 1
    let step := fun (dr : List acceptItem × Nat) (i : Nat) =>
      let r := xorshiftNext dr.2
      let other0 := r &&& (modulus - 1)
      let other := if other0 ≥ len then other0 - len else other0
      (swapI dr.1 (i0 - 1 + i) (a + other), r)
    (([0, 1, 2] : List Nat).foldl step (d, len)).1
  else d

/-- The loop body of Go pdqsort_func past its two terminal branches, with
the recursive and continue calls abstracted as rec (the tail self-call of
the loop carries the updated bounds and flags). -/
def pdqStep (rec : List acceptItem → Nat → Nat → Nat → Bool → Bool → List acceptItem)
    (d : List acceptItem) (a b limit : Nat) (wasBalanced wasPartitioned : Bool) :
    List acceptItem :=
  let len := b - a
  let d1 := if wasBalanced = false then breakPatternsF d a b else d
  let limit1 := if wasBalanced = false then limit - 1 else limit
  let pv := choosePivot d1 a b
  let d2 := if pv.2 = 2 then revRangeF (b + 1) d1 a (b - 1) else d1
  let pivot1 := if pv.2 = 2 then (b - 1) - (pv.1 - a) else pv.1
  let hint1 := if pv.2 = 2 then 1 else pv.2
  let stepA : List acceptItem × Bool :=
    if wasBalanced ∧ wasPartitioned ∧ hint1 = 1 then partInsSort d2 a b
    else (d2, false)
  if stepA.2 then stepA.1
  else
    let d3 := stepA.1
    if 0 < a ∧ lessI d3 (a - 1) pivot1 = false then
      let pe := partitionEqualF d3 a b pivot1
      rec pe.1 pe.2 b limit1 wasBalanced wasPartitioned
    else
      let pp := partitionF d3 a b pivot1
      let mid := pp.2.1
      let leftLen := mid - a
      let rightLen := b - mid
      let wasBalanced2 := decide (min leftLen rightLen ≥ len / 8)
      if leftLen < rightLen then
        rec (rec pp.1 a mid limit1 true true) (mid + 1) b limit1 wasBalanced2 pp.2.2
      else
        rec (rec pp.1 (mid + 1) b limit1 true true) a mid limit1 wasBalanced2 pp.2.2

/-- Go pdqsort_func (sort/zsortfunc.go): small segments go to the insertion
sort, exhausted limits to the heap sort, everything else to the loop body,
fueled. -/
def pdqsortF : Nat → List acceptItem → Nat → Nat → Nat → Bool → Bool → List acceptItem
  | 0, d, _, _, _, _, _ => d
  | fuel + 1, d, a, b, limit, wasBalanced, wasPartitioned =>
    if b - a ≤ 12 then insertionSortR d a b
    else if limit = 0 then heapSortF d a b
    else pdqStep (pdqsortF fuel) d a b limit wasBalanced wasPartitioned

/-- Go sort.Slice: pdqsort over the whole slice with limit = bits.Len(n);
the fuel strictly dominates the recursion and loop depth. -/
def sortSlice (l : List acceptItem) : List acceptItem :=
  pdqsortF (2 * l.length + 64) l 0 l.length (bitsLen l.length) true true

/-- Go (context.go, parseAccept): parse the items, then sort.Slice them by
strictly descending weight. -/
def parseAccept (header : String) : List acceptItem :=
  sortSlice (parseAcceptItems header)

/-- Inner loop of matchAccept over the offers (original and lower-cased in
step), returning the first matching offer in its original casing. -/
def matchOffer (accVal : String) : List String → List String → Option String
  | o :: os, ol :: ols =>
    if accVal = ol ∨ accVal = "*" then some o
    else if goHasSuffix accVal "/*" ∧ goStartsWith ol (goTrimSuffix accVal "*") then some o
    else matchOffer accVal os ols
  | _, _ => none

/-- Outer loop of matchAccept over the sorted accept items. -/
def matchLoop : List acceptItem → List String → List String → String
  | [], _, _ => ""
  | a :: rest, origs, lowers =>
    match matchOffer a.value origs lowers with
    | some o => o
    | none => matchLoop rest origs lowers

/-- Go (context.go, matchAccept). -/
def matchAccept (header : String) (offers : List String) : String :=
  if header = "" ∨ offers = [] then ""
  else matchLoop (parseAccept header) offers (offers.map goToLower)

/-- C5 (the code at the claimed input): matchAccept on the header star slash
star with the single offer application/xml returns the empty string, not the
offer: the wildcard branch trims only the trailing star, leaving the prefix
star slash, which no concrete media type starts with. -/
theorem matchAccept_full_wildcard_misses :
    matchAccept "*/*" ["application/xml"] = ""
      ∧ matchAccept "*/*" ["application/xml"] ≠ "application/xml" :=
  ⟨rfl, by decide⟩

/-- C4 counterexample: a thirteen-item header, one beyond sort.Slice's
twelve-item insertion-sort threshold, whose equal-weight items are reordered
by the pdqsort partitioning: the weight-1 items occur in the header in the
order m0, m3, m5, m7, m9, m11 but come out in the order m9, m3, m5, m7, m0,
m11, so two equal-weight items (m0 and m9) do not keep their original
relative order in the parseAccept result. -/
theorem parseAccept_reorders_equal_weights :
    (let hdr := "m0,m1;q=0.5,m2;q=0.5,m3,m4;q=0.5,m5,m6;q=0.5,m7,m8;q=0.5,m9,m10;q=0.5,m11,m12;q=0.5"
     ((parseAcceptItems hdr).filter (fun z => decide (z.q = 1))).map acceptItem.value
        = ["m0", "m3", "m5", "m7", "m9", "m11"]
     ∧ ((parseAccept hdr).filter (fun z => decide (z.q = 1))).map acceptItem.value
        = ["m9", "m3", "m5", "m7", "m0", "m11"]
     ∧ ((parseAccept hdr).filter (fun z => decide (z.q = 1))).map acceptItem.value
        ≠ ((parseAcceptItems hdr).filter (fun z => decide (z.q = 1))).map acceptItem.value) := by
  decide

/- The amended stability statement: below the insertion-sort threshold, the
sort performed by parseAccept is the classical stable insertion sort.  The
functional stable insert insA places the new element behind every element of
weight at least its own, which is where the Go insertion sort's bubbling
stops on a sorted prefix. -/

/-- Nonincreasing weight order between accept items. -/
def geQ (u v : acceptItem) : Prop := v.q ≤ u.q

/-- Stable insert for nonincreasing weights: the new element goes behind all
elements of at least its weight. -/
def insA (x : acceptItem) : List acceptItem → List acceptItem
  | [] => [x]
  | y :: ys => if y.q ≥ x.q then y :: insA x ys else x :: y :: ys

/-- The stable insertion sort, processing the list left to right. -/
def insSortL (l : List acceptItem) : List acceptItem :=
  l.foldl (fun s x => insA x s) []

theorem insA_length (x : acceptItem) (l : List acceptItem) :
    (insA x l).length = l.length + 1 := by
  induction l with
  | nil => rfl
  | cons y ys ih =>
    simp only [insA]
    split <;> simp [ih]

theorem insA_mem (x z : acceptItem) (l : List acceptItem) (hz : z ∈ insA x l) :
    z = x ∨ z ∈ l := by
  induction l with
  | nil => simpa [insA] using hz
  | cons y ys ih =>
    simp only [insA] at hz
    split at hz
    · rcases List.mem_cons.mp hz with h1 | h2
      · exact Or.inr (by simp [h1])
      · rcases ih h2 with h3 | h4
        · exact Or.inl h3
        · exact Or.inr (by simp [h4])
    · rcases List.mem_cons.mp hz with h1 | h2
      · exact Or.inl h1
      · exact Or.inr h2

theorem insA_sorted (x : acceptItem) (l : List acceptItem)
    (hl : List.Pairwise geQ l) : List.Pairwise geQ (insA x l) := by
  induction l with
  | nil => simp [insA, geQ]
  | cons y ys ih =>
    rcases List.pairwise_cons.mp hl with ⟨hy, hys⟩
    simp only [insA]
    split
    · rename_i hyq
      refine List.pairwise_cons.mpr ⟨?_, ih hys⟩
      intro z hz
      rcases insA_mem x z ys hz with h1 | h2
      · subst h1; exact hyq
      · exact hy z h2
    · rename_i hyq
      push_neg at hyq
      refine List.pairwise_cons.mpr ⟨?_, List.pairwise_cons.mpr ⟨hy, hys⟩⟩
      intro z hz
      rcases List.mem_cons.mp hz with h1 | h2
      · subst h1; exact le_of_lt hyq
      · exact le_trans (hy z h2) (le_of_lt hyq)

theorem insA_all_ge (x : acceptItem) (l : List acceptItem)
    (hall : ∀ z ∈ l, z.q ≥ x.q) : insA x l = l ++ [x] := by
  induction l with
  | nil => rfl
  | cons y ys ih =>
    simp only [insA, if_pos (hall y (by simp))]
    rw [ih (fun z hz => hall z (by simp [hz]))]
    rfl

theorem insA_append_lt (x y : acceptItem) (l : List acceptItem)
    (hy : y.q < x.q) : insA x (l ++ [y]) = insA x l ++ [y] := by
  induction l with
  | nil => simp [insA, not_le.mpr hy]
  | cons z zs ih =>
    simp only [List.cons_append, insA]
    split <;> simp [ih]

theorem insA_filter (c : ℚ) (x : acceptItem) (l : List acceptItem)
    (hl : List.Pairwise geQ l) :
    (insA x l).filter (fun z => decide (z.q = c))
      = l.filter (fun z => decide (z.q = c)) ++ (if x.q = c then [x] else []) := by
  induction l with
  | nil => by_cases hxc : x.q = c <;> simp [insA, hxc]
  | cons y ys ih =>
    rcases List.pairwise_cons.mp hl with ⟨hy, hys⟩
    simp only [insA]
    split
    · rename_i hyq
      simp only [List.filter_cons]
      rw [ih hys]
      split <;> simp
    · rename_i hyq
      push_neg at hyq
      simp only [List.filter_cons]
      by_cases hxc : x.q = c
      · have hyc : ¬(y.q = c) := by
          intro he
          rw [← hxc] at he
          exact absurd he (ne_of_lt hyq)
        have hysnil : ys.filter (fun z => decide (z.q = c)) = [] := by
          rw [List.filter_eq_nil_iff]
          intro z hz
          have hzx : z.q < x.q := lt_of_le_of_lt (hy z hz) hyq
          rw [hxc] at hzx
          simpa using ne_of_lt hzx
        simp [hxc, hyc, hysnil]
      · simp [hxc]

theorem getD_append_mid {α : Type} (l : List α) (a : α) (t : List α) (d : α) :
    (l ++ a :: t).getD l.length d = a := by
  induction l with
  | nil => rfl
  | cons b bs ih => exact ih

theorem set_append_mid {α : Type} (l : List α) (a b : α) (t : List α) :
    (l ++ a :: t).set l.length b = l ++ b :: t := by
  induction l with
  | nil => rfl
  | cons c cs ih =>
    show c :: ((cs ++ a :: t).set cs.length b) = c :: (cs ++ b :: t)
    rw [ih]

theorem idxI_mid (l : List acceptItem) (a : acceptItem) (t : List acceptItem) :
    idxI (l ++ a :: t) l.length = a :=
  getD_append_mid l a t itemD

theorem idxI_mid2 (l : List acceptItem) (u v : acceptItem) (t : List acceptItem) :
    idxI (l ++ u :: v :: t) (l.length + 1) = v := by
  rw [show l ++ u :: v :: t = (l ++ [u]) ++ v :: t by simp,
      show l.length + 1 = (l ++ [u]).length by simp]
  exact idxI_mid _ _ _

theorem swapI_adj (l : List acceptItem) (u v : acceptItem) (t : List acceptItem) :
    swapI (l ++ u :: v :: t) (l.length + 1) l.length = l ++ v :: u :: t := by
  unfold swapI
  rw [idxI_mid l u (v :: t), idxI_mid2 l u v t]
  have h3 : (l ++ u :: v :: t).set (l.length + 1) u = l ++ u :: u :: t := by
    rw [show l ++ u :: v :: t = (l ++ [u]) ++ v :: t by simp,
        show l.length + 1 = (l ++ [u]).length by simp,
        set_append_mid]
    simp
  rw [h3, set_append_mid]

/-- On a sorted prefix, the bubbling inner loop of the Go insertion sort is
exactly the stable insert of the element sitting just past the prefix. -/
theorem insInner_bubble (x : acceptItem) :
    ∀ (p : List acceptItem), List.Pairwise geQ p →
      ∀ (r : List acceptItem), insInner (p ++ x :: r) 0 p.length = insA x p ++ r := by
  intro p
  induction p using List.reverseRecOn with
  | nil => intro _ r; rfl
  | append_singleton p' y ih =>
    intro hp r
    have hsplit : (p' ++ [y]) ++ x :: r = p' ++ y :: x :: r := by simp
    have hlen : (p' ++ [y]).length = p'.length + 1 := by simp
    rw [hsplit, hlen]
    have hp' : List.Pairwise geQ p' := (List.pairwise_append.mp hp).1
    have hally : ∀ z ∈ p', y.q ≤ z.q := by
      intro z hz
      exact (List.pairwise_append.mp hp).2.2 z hz y (by simp)
    have hless : lessI (p' ++ y :: x :: r) (p'.length + 1) p'.length
        = decide (x.q > y.q) := by
      unfold lessI
      rw [idxI_mid2 p' y x r, idxI_mid p' y (x :: r)]
    by_cases hxy : x.q > y.q
    · have hcond : 0 < p'.length + 1
          ∧ lessI (p' ++ y :: x :: r) (p'.length + 1) p'.length = true := by
        exact ⟨by omega, by rw [hless]; simpa using hxy⟩
      simp only [insInner]
      rw [if_pos hcond, swapI_adj p' y x r, ih hp' (y :: r),
        insA_append_lt x y p' hxy]
      simp
    · have hcond : ¬(0 < p'.length + 1
          ∧ lessI (p' ++ y :: x :: r) (p'.length + 1) p'.length = true) := by
        rw [hless]
        simp only [not_and]
        intro _
        simpa using hxy
      simp only [insInner]
      rw [if_neg hcond]
      rw [insA_all_ge x (p' ++ [y]) ?hall]
      case hall =>
        intro z hz
        rcases List.mem_append.mp hz with h1 | h2
        · exact le_trans (not_lt.mp hxy) (hally z h1)
        · have : z = y := by simpa using h2
          subst this
          exact not_lt.mp hxy
      simp

/-- The fueled outer loop of the Go insertion sort computes the left fold of
the stable insert, as long as the fuel covers the remaining elements. -/
theorem insLoopF_foldl :
    ∀ (todo : List acceptItem) (fuel : Nat) (acc : List acceptItem),
      todo.length ≤ fuel → List.Pairwise geQ acc →
      insLoopF fuel (acc ++ todo) 0 acc.length (acc.length + todo.length)
        = todo.foldl (fun s x => insA x s) acc := by
  intro todo
  induction todo with
  | nil =>
    intro fuel acc _ _
    cases fuel with
    | zero => simp [insLoopF]
    | succ f => simp [insLoopF]
  | cons x rest ih =>
    intro fuel acc hf hacc
    cases fuel with
    | zero => simp at hf
    | succ f =>
      have hlt : acc.length < acc.length + (x :: rest).length := by simp
      simp only [insLoopF, if_pos hlt]
      rw [insInner_bubble x acc hacc rest]
      have hb : acc.length + (x :: rest).length = (insA x acc).length + rest.length := by
        rw [insA_length]; simp; omega
      have hi : acc.length + 1 = (insA x acc).length := by rw [insA_length]
      rw [hb, hi, ih f (insA x acc) (by simp at hf; omega) (insA_sorted x acc hacc)]
      rfl

/-- The Go insertion sort over the whole list is the stable insertion sort. -/
theorem insertionSortR_eq_insSortL (l : List acceptItem) :
    insertionSortR l 0 l.length = insSortL l := by
  cases l with
  | nil => rfl
  | cons x rest =>
    have key := insLoopF_foldl rest (rest.length + 2) [x] (by omega) (by simp [geQ])
    show insLoopF ((x :: rest).length + 1) (x :: rest) 0 1 (x :: rest).length
        = insSortL (x :: rest)
    have e1 : (x :: rest).length + 1 = rest.length + 2 := by simp
    have e4 : ([x] : List acceptItem).length + rest.length = (x :: rest).length := by
      simp [Nat.add_comm]
    rw [e1, ← e4]
    exact key

/-- Below the threshold, sort.Slice is its insertion sort. -/
theorem sortSlice_of_le_twelve (l : List acceptItem) (h : l.length ≤ 12) :
    sortSlice l = insertionSortR l 0 l.length := by
  show pdqsortF (2 * l.length + 64) l 0 l.length (bitsLen l.length) true true = _
  rw [show 2 * l.length + 64 = (2 * l.length + 63) + 1 from rfl]
  simp only [pdqsortF]
  rw [if_pos (by simpa using h)]

theorem foldl_insA_sorted :
    ∀ (l acc : List acceptItem), List.Pairwise geQ acc →
      List.Pairwise geQ (l.foldl (fun s x => insA x s) acc) := by
  intro l
  induction l with
  | nil => exact fun acc h => h
  | cons x rest ih => exact fun acc h => ih (insA x acc) (insA_sorted x acc h)

theorem foldl_insA_filter (c : ℚ) :
    ∀ (l acc : List acceptItem), List.Pairwise geQ acc →
      (l.foldl (fun s x => insA x s) acc).filter (fun z => decide (z.q = c))
        = acc.filter (fun z => decide (z.q = c))
            ++ l.filter (fun z => decide (z.q = c)) := by
  intro l
  induction l with
  | nil => intro acc h; simp
  | cons x rest ih =>
    intro acc h
    simp only [List.foldl_cons]
    rw [ih (insA x acc) (insA_sorted x acc h), insA_filter c x acc h]
    simp only [List.filter_cons]
    by_cases hxc : x.q = c <;> simp [hxc]

/-- C4 (amended): parseAccept arranges the items by nonincreasing weight, but
stably only below sort.Slice's insertion-sort threshold: for every header
parsing to at most twelve items, the result is the stable insertion sort of
the parsed items, it is nonincreasingly sorted by weight, and for every
weight the subsequence of items of that weight equals the one of the
unsorted header order; for longer headers the partitioning of the pdqsort
can reorder equal-weight items. -/
theorem parseAccept_stable_below_threshold (header : String)
    (hlen : (parseAcceptItems header).length ≤ 12) :
    parseAccept header = insSortL (parseAcceptItems header)
  ∧ List.Pairwise geQ (parseAccept header)
  ∧ ∀ c : ℚ, (parseAccept header).filter (fun z => decide (z.q = c))
      = (parseAcceptItems header).filter (fun z => decide (z.q = c)) := by
  have h1 : parseAccept header = insSortL (parseAcceptItems header) := by
    unfold parseAccept
    rw [sortSlice_of_le_twelve _ hlen, insertionSortR_eq_insSortL]
  refine ⟨h1, ?_, ?_⟩
  · rw [h1]
    exact foldl_insA_sorted _ [] (by simp)
  · intro c
    rw [h1]
    have := foldl_insA_filter c (parseAcceptItems header) [] (by simp)
    simpa [insSortL] using this

theorem parseAccept_stable_below_threshold_witness :
    (parseAcceptItems "a;q=0.5,b,c;q=0.5").length ≤ 12
      ∧ parseAccept "a;q=0.5,b,c;q=0.5"
          = insSortL (parseAcceptItems "a;q=0.5,b,c;q=0.5") :=
  ⟨by decide,
   (parseAccept_stable_below_threshold "a;q=0.5,b,c;q=0.5" (by decide)).1⟩

/- Host splitting (context.go, Context.Hostname) uses net.SplitHostPort,
embedded from net/ipsock.go: the port starts after the last colon; a leading
bracket delimits an IPv6 host whose closing bracket must sit just before that
colon; stray colons or brackets are errors.  All error cases collapse to
none, on which Hostname returns the raw host unchanged. -/

/-- Index of the last occurrence of a character. -/
def lastIdx : List Char → Char → Option Nat
  | [], _ => none
  | x :: xs, c =>
    match lastIdx xs c with
    | some i => some (i + 1)
    | none => if x = c then some 0 else none

/-- Index of the first occurrence of a character. -/
def firstIdx : List Char → Char → Option Nat
  | [], _ => none
  | x :: xs, c => if x = c then some 0 else (firstIdx xs c).map (· + 1)

theorem lastIdx_get (cs : List Char) (c : Char) :
    ∀ i, lastIdx cs c = some i → cs.get? i = some c := by
  induction cs with
  | nil => intro i h; simp [lastIdx] at h
  | cons x xs ih =>
    intro i
    unfold lastIdx
    cases hm : lastIdx xs c with
    | some j =>
      intro h
      simp only [Option.some.injEq] at h
      subst h
      simpa using ih j hm
    | none =>
      show (if x = c then some 0 else none) = some i → _
      by_cases hx : x = c
      · rw [if_pos hx]
        intro h
        simp only [Option.some.injEq] at h
        subst h
        simp [hx]
      · rw [if_neg hx]
        intro h
        simp at h

theorem firstIdx_get (cs : List Char) (c : Char) :
    ∀ i, firstIdx cs c = some i → cs.get? i = some c := by
  induction cs with
  | nil => intro i h; simp [firstIdx] at h
  | cons x xs ih =>
    intro i
    unfold firstIdx
    by_cases hx : x = c
    · rw [if_pos hx]
      intro h
      simp only [Option.some.injEq] at h
      subst h
      simp [hx]
    · rw [if_neg hx]
      cases hm : firstIdx xs c with
      | some j =>
        intro h
        simp only [Option.map_some', Option.some.injEq] at h
        subst h
        simpa using ih j hm
      | none =>
        intro h
        simp at h

theorem get_decomp {α : Type} (cs : List α) :
    ∀ (i : Nat) (c : α), cs.get? i = some c →
      cs = cs.take i ++ c :: cs.drop (i + 1) := by
  induction cs with
  | nil => intro i c h; simp at h
  | cons x xs ih =>
    intro i c h
    cases i with
    | zero =>
      simp only [List.get?] at h
      simp only [Option.some.injEq] at h
      subst h
      simp
    | succ j =>
      simp only [List.get?] at h
      have := ih j c h
      simp only [List.take_succ_cons, List.drop_succ_cons, List.cons_append,
        List.cons.injEq]
      exact ⟨trivial, this⟩

theorem drop_eq_cons {α : Type} (cs : List α) :
    ∀ (n : Nat) (c : α), cs.get? n = some c → cs.drop n = c :: cs.drop (n + 1) := by
  induction cs with
  | nil => intro n c h; simp at h
  | cons x xs ih =>
    intro n c h
    cases n with
    | zero =>
      simp only [List.get?] at h
      simp only [Option.some.injEq] at h
      subst h
      simp
    | succ j =>
      simp only [List.get?] at h
      simpa using ih j c h

/-- Go net.SplitHostPort over characters; none on every error path. -/
def splitHostPortL (cs : List Char) : Option (List Char × List Char) :=
  match lastIdx cs ':' with
  | none => none
  | some i =>
    if cs.get? 0 = some '[' then
      match firstIdx cs ']' with
      | none => none
      | some e =>
        if e + 1 = cs.length then none
        else if e + 1 = i then
          if (firstIdx (cs.drop 1) '[').isSome then none
          else if (firstIdx (cs.drop (e + 1)) ']').isSome then none
          else some ((cs.drop 1).take (e - 1), cs.drop (i + 1))
        else none
    else
      if (firstIdx (cs.take i) ':').isSome then none
      else if (firstIdx cs '[').isSome then none
      else if (firstIdx cs ']').isSome then none
      else some (cs.take i, cs.drop (i + 1))

/-- Go net.SplitHostPort over strings. -/
def goSplitHostPort (s : String) : Option (String × String) :=
  (splitHostPortL s.toList).map (fun p => (p.1.asString, p.2.asString))

/-- A successful split decomposes the input as host colon port, or as the
bracketed host followed by colon and port. -/
theorem splitHostPortL_decomp (cs : List Char) (h p : List Char)
    (hs : splitHostPortL cs = some (h, p)) :
    cs = h ++ ':' :: p ∨ cs = '[' :: (h ++ ']' :: ':' :: p) := by
  unfold splitHostPortL at hs
  split at hs
  · simp at hs
  · rename_i i hlast
    have hcolon : cs.get? i = some ':' := lastIdx_get cs ':' i hlast
    split at hs
    · rename_i hbr
      split at hs
      · simp at hs
      · rename_i e hfirst
        have hket : cs.get? e = some ']' := firstIdx_get cs ']' e hfirst
        split at hs
        · simp at hs
        · split at hs
          · rename_i hei
            split at hs
            · simp at hs
            · split at hs
              · simp at hs
              · simp only [Option.some.injEq, Prod.mk.injEq] at hs
                obtain ⟨hh, hp⟩ := hs
                subst hh
                subst hp
                right
                obtain ⟨c0, cs', hcs⟩ : ∃ c0 cs', cs = c0 :: cs' := by
                  cases cs with
                  | nil => simp at hbr
                  | cons c0 cs' => exact ⟨c0, cs', rfl⟩
                have hc0 : c0 = '[' := by
                  rw [hcs] at hbr
                  simpa using hbr
                have hene : e ≠ 0 := by
                  intro he0
                  rw [he0, hcs] at hket
                  simp only [List.get?] at hket
                  simp only [Option.some.injEq] at hket
                  rw [hc0] at hket
                  exact absurd hket (by decide)
                have hdecompE := get_decomp cs e ']' hket
                have hdropE : cs.drop (e + 1) = ':' :: cs.drop (e + 2) := by
                  have : cs.get? (e + 1) = some ':' := by rw [hei]; exact hcolon
                  exact drop_eq_cons cs (e + 1) ':' this
                have htakeE : cs.take e = '[' :: (cs.drop 1).take (e - 1) := by
                  obtain ⟨e', rfl⟩ : ∃ e', e = e' + 1 := ⟨e - 1, by omega⟩
                  rw [hcs, hc0]
                  simp
                rw [← hei]
                calc cs = cs.take e ++ ']' :: cs.drop (e + 1) := hdecompE
                  _ = '[' :: ((cs.drop 1).take (e - 1) ++ ']' :: ':' :: cs.drop (e + 2)) := by
                      rw [htakeE, hdropE]; simp
                  _ = '[' :: ((cs.drop 1).take (e - 1) ++ ']' :: ':' :: cs.drop (e + 1 + 1)) := by
                      rfl
          · simp at hs
    · split at hs
      · simp at hs
      · split at hs
        · simp at hs
        · split at hs
          · simp at hs
          · simp only [Option.some.injEq, Prod.mk.injEq] at hs
            obtain ⟨hh, hp⟩ := hs
            subst hh
            subst hp
            left
            exact get_decomp cs i ':' hcolon

/- The request context and accessors (context.go). -/

/-- The fields of the fasthttp request/response carrier read by the accessors
under verification: the raw host, the raw request body (PostBody), the
response body, and the request headers as a total map returning the empty
string for absent keys, matching Peek. -/
structure RequestCtxM where
  host : String
  postBody : String
  responseBody : String
  headers : String → String

/-- Go (context.go): type Context struct { ctx ptr-fasthttp.RequestCtx }. -/
structure Context where
  ctx : RequestCtxM

/-- Go (context.go, Context.GetHeader): read a request header. -/
def Context.GetHeader (c : Context) (key : String) : String :=
  c.ctx.headers key

/-- Go (context.go, Context.Hostname): net.SplitHostPort on the raw host;
the raw host unchanged on error, the host part otherwise. -/
def Context.Hostname (c : Context) : String :=
  match goSplitHostPort c.ctx.host with
  | none => c.ctx.host
  | some p => p.1

/-- Go (context.go, Context.BodyRaw): returns c.ctx.Response.Body(). -/
def Context.BodyRaw (c : Context) : String :=
  c.ctx.responseBody

/-- Go (context.go, Context.Body): returns c.ctx.PostBody(). -/
def Context.Body (c : Context) : String :=
  c.ctx.postBody

/-- Go (context.go, Context.Range): parse the Range request header. -/
def Context.Range (c : Context) (maxSize : Int) : Except String Range :=
  goRange (c.GetHeader "Range") maxSize

/-- C9: Hostname is total by construction and never fails: when the raw host
does not split into host and port it is returned unchanged, and when it does
split, Hostname returns exactly the host part, the raw host being the host
followed by a colon and the port (with brackets around an IPv6 host). -/
theorem hostname_total_and_returns_host_part (rc : RequestCtxM) :
    (goSplitHostPort rc.host = none → Context.Hostname ⟨rc⟩ = rc.host)
  ∧ (∀ h p, goSplitHostPort rc.host = some (h, p) →
       Context.Hostname ⟨rc⟩ = h
         ∧ (rc.host = h ++ ":" ++ p ∨ rc.host = "[" ++ h ++ "]:" ++ p)) := by
  constructor
  · intro hnone
    unfold Context.Hostname
    rw [hnone]
  · intro h p hsome
    constructor
    · unfold Context.Hostname
      rw [hsome]
    · unfold goSplitHostPort at hsome
      cases hl : splitHostPortL rc.host.toList with
      | none => rw [hl] at hsome; simp at hsome
      | some q =>
        obtain ⟨hl0, pl0⟩ := q
        rw [hl] at hsome
        simp only [Option.map_some', Option.some.injEq, Prod.mk.injEq] at hsome
        obtain ⟨hh, hp⟩ := hsome
        rcases splitHostPortL_decomp rc.host.toList hl0 pl0 hl with hc | hc
        · left
          apply String.ext
          show rc.host.data = (h ++ ":" ++ p).data
          rw [String.data_append, String.data_append]
          rw [← hh, ← hp]
          simpa using hc
        · right
          apply String.ext
          show rc.host.data = ("[" ++ h ++ "]:" ++ p).data
          rw [String.data_append, String.data_append, String.data_append]
          rw [← hh, ← hp]
          simpa using hc

theorem hostname_total_and_returns_host_part_witness :
    goSplitHostPort "example.com:8080" = some ("example.com", "8080")
      ∧ (Context.Hostname ⟨⟨"example.com:8080", "", "", fun _ => ""⟩⟩ = "example.com"
          ∧ ("example.com:8080" = "example.com" ++ ":" ++ "8080"
              ∨ "example.com:8080" = "[" ++ "example.com" ++ "]:" ++ "8080")) :=
  ⟨by decide,
   (hostname_total_and_returns_host_part ⟨"example.com:8080", "", "", fun _ => ""⟩).2
     "example.com" "8080" (by decide)⟩

/-- C10: BodyRaw returns the current response body while Body returns the
raw request body, so after a response body is set the two accessors can
differ on the same context. -/
theorem bodyRaw_reads_response_body_reads_request :
    (∀ rc : RequestCtxM,
       Context.BodyRaw ⟨rc⟩ = rc.responseBody ∧ Context.Body ⟨rc⟩ = rc.postBody)
  ∧ (let rc : RequestCtxM := ⟨"", "request-bytes", "response-bytes", fun _ => ""⟩
     Context.BodyRaw ⟨rc⟩ ≠ Context.Body ⟨rc⟩) :=
  ⟨fun rc => ⟨rfl, rfl⟩, by decide⟩

end Kokoro
